import Mathlib

/-
Verification of the poker protocol shim (games/poker_socket.py and
games/poker_game.py): the wire-line parser `receive_message`, the observation
encoder `_encode_observation`, the card indexer `_card_to_index`, the action
decoder `_action_to_poker_code`, the step/reset/legal_actions adapter.

Python strings are embedded as `List Char`; Python `None`/exceptions as
`Option` (a `none` result of a modelled operation marks the exception the
source would raise at that point); Python floats as `ℚ`; Python ints as `ℤ`.
-/

set_option maxHeartbeats 1000000
set_option maxRecDepth 8000

/-- Python truthiness-relevant whitespace strip, modelling `str.strip()`. -/
def stripWS (l : List Char) : List Char :=
  ((l.dropWhile Char.isWhitespace).reverse.dropWhile Char.isWhitespace).reverse

/-- Modelling Python `str.split(sep)` for a one-character separator:
keeps empty chunks, `[]` splits to `[[]]`. -/
def splitOnChar (sep : Char) (l : List Char) : List (List Char) :=
  l.foldr
    (fun c acc =>
      if c = sep then [] :: acc
      else
        match acc with
        | [] => [[c]]
        | h :: t => (c :: h) :: t)
    [[]]

/-- Modelling Python `str.startswith(c)` for a one-character argument. -/
def startsWith (c : Char) : List Char → Bool
  | [] => false
  | x :: _ => x = c

/-- Value of a digit list; fails on the empty list or any non-digit,
the core of Python `int()` applied to an unsigned literal. -/
def digitsToNat (l : List Char) : Option ℕ :=
  if l = [] then none
  else l.foldlM (fun acc c => if c.isDigit then some (acc * 10 + (c.toNat - 48)) else none) 0

/-- Modelling Python `int(s)` (restricted to an optional sign followed by
decimal digits; underscores and surrounding whitespace are not modelled).
`none` marks the `ValueError` the source call would raise. -/
def pyInt : List Char → Option ℤ
  | '+' :: rest => (digitsToNat rest).map Int.ofNat
  | '-' :: rest => (digitsToNat rest).map (fun n => -(n : ℤ))
  | l => (digitsToNat l).map Int.ofNat

/-- Digit-list value where the empty list counts as 0, used for the two
sides of a decimal point (`float("1.")` and `float(".5")` are accepted). -/
def digitsVal (l : List Char) : Option ℕ :=
  l.foldlM (fun acc c => if c.isDigit then some (acc * 10 + (c.toNat - 48)) else none) 0

/-- Magnitude part of Python `float(s)`: digits with an optional single
decimal point, at least one digit overall. -/
def pyFloatMag (l : List Char) : Option ℚ :=
  match splitOnChar '.' l with
  | [i] => if i = [] then none else (digitsVal i).map (fun n => (n : ℚ))
  | [i, f] =>
      if i = [] ∧ f = [] then none
      else
        match digitsVal i, digitsVal f with
        | some a, some b => some ((a : ℚ) + (b : ℚ) / ((10 : ℚ) ^ f.length))
        | _, _ => none
  | _ => none

/-- Modelling Python `float(s)` (decimal literals with optional sign;
exponents, `inf` and `nan` are not modelled). `none` marks `ValueError`. -/
def pyFloat : List Char → Option ℚ
  | '+' :: rest => pyFloatMag rest
  | '-' :: rest => (pyFloatMag rest).map Neg.neg
  | l => pyFloatMag l

/-- The structured dict built by `PokerSocket.receive_message`; every key is
always present, optional values model Python `None`. -/
structure StateMessage where
  time_remaining : Option ℚ := none
  player_index : Option ℤ := none
  hole_cards : List (List Char) := []
  board_cards : List (List Char) := []
  action_history : List (List Char) := []
  bankroll_delta : Option ℤ := none
  bounty_hits : Option (List Char) := none
  game_over : Bool := false
  opponent_hand : List (List Char) := []
deriving Repr, DecidableEq

/-- The dict as initialised at the top of `receive_message` (all defaults). -/
def defaultMessage : StateMessage := {}

/-- `clause[1:].split(',') if len(clause) > 1 else []` followed by
`[c for c in cards if c]`. -/
def csvCards (clause : List Char) : List (List Char) :=
  let cards := if clause.length > 1 then splitOnChar ',' (clause.drop 1) else []
  cards.filter (fun c => c ≠ [])

/-- One iteration of the clause loop in `receive_message`; `none` marks the
`ValueError` of `float`/`int` on a recognised numeric tag, which the
enclosing `try` of the source turns into a `None` result for the whole line. -/
def processClause (m : StateMessage) (c : List Char) : Option StateMessage :=
  if c = [] then some m
  else if startsWith 'T' c then
    (pyFloat (c.drop 1)).map fun t => { m with time_remaining := some t }
  else if startsWith 'P' c then
    (pyInt (c.drop 1)).map fun p => { m with player_index := some p }
  else if startsWith 'H' c then some { m with hole_cards := csvCards c }
  else if startsWith 'B' c then some { m with board_cards := csvCards c }
  else if startsWith 'O' c then some { m with opponent_hand := csvCards c }
  else if startsWith 'D' c then
    (pyInt (c.drop 1)).map fun d => { m with bankroll_delta := some d }
  else if startsWith 'Y' c then some { m with bounty_hits := some (c.drop 1) }
  else if c = ['Q'] then some { m with game_over := true }
  else if c = ['F'] ∨ c = ['C'] ∨ c = ['K'] ∨ startsWith 'R' c then
    some { m with action_history := m.action_history ++ [c] }
  else some m

/-- `PokerSocket.receive_message` from the point the raw line has been read:
strip, empty line yields no message, otherwise the clause loop over the
space-split; a clause-level numeric failure aborts the whole line with `none`
(the source's catch-all `except` returns `None`). -/
def receiveMessage (line : List Char) : Option StateMessage :=
  let l := stripWS line
  if l = [] then none
  else (splitOnChar ' ' l).foldlM processClause defaultMessage

/-- First index of a character in a list, modelling Python `str.index`
(`none` marks its `ValueError`). -/
def strIndex (c : Char) : List Char → Option ℕ
  | [] => none
  | x :: xs => if x = c then some 0 else (strIndex c xs).map (· + 1)

def ranks : List Char := ['2', '3', '4', '5', '6', '7', '8', '9', 'T', 'J', 'Q', 'K', 'A']

def suits : List Char := ['s', 'h', 'd', 'c']

/-- `PokerGame._card_to_index`: rank/suit lookup on a two-character token;
the source's length-2 guard and its `except ValueError` both land in `-1`
(the wildcard arms here). -/
def cardToIndex (card : List Char) : ℤ :=
  match card with
  | [r, s] =>
      match strIndex r ranks, strIndex s suits with
      | some ri, some si => (ri : ℤ) * 4 + si
      | _, _ => -1
  | _ => -1

/-- The 52 valid card tokens in canonical index order. -/
def validTokens : List (List Char) :=
  ranks.flatMap (fun r => suits.map (fun s => [r, s]))

def strategic_raises : List ℕ := [2, 3, 4, 6, 8, 12, 16, 20, 25, 30, 40, 50, 75, 100, 150, 200, 300, 400]

def min_raise : ℕ := 2

def max_raise : ℕ := 400

/-- Decimal rendering of a natural number, for the `f'R{amount}'` strings. -/
def natToChars (n : ℕ) : List Char := Nat.toDigits 10 n

/-- `PokerGame._action_to_poker_code`: fold/call/check, strategic raises for
3..20, linear raises for 21..102, check for everything else. -/
def actionToPokerCode (action : ℤ) : List Char :=
  if action = 0 then ['F']
  else if action = 1 then ['C']
  else if action = 2 then ['K']
  else if 3 ≤ action ∧ action ≤ 20 then
    if (action - 3).toNat < strategic_raises.length then
      'R' :: natToChars (strategic_raises.getD (action - 3).toNat 0)
    else 'R' :: natToChars min_raise
  else if 21 ≤ action ∧ action ≤ 102 then
    'R' :: natToChars (min_raise + (action - 21).toNat * (max_raise - min_raise) / 81)
  else ['K']

/-- The raise amount carried by a decoded protocol string, when it is one. -/
def raiseAmountOf (s : List Char) : Option ℤ :=
  if startsWith 'R' s then pyInt (s.drop 1) else none

/-- Raise amount reached from an action index. -/
def decodeRaiseAmount (i : ℕ) : Option ℤ :=
  raiseAmountOf (actionToPokerCode (i : ℤ))

/-- Street block of `_encode_observation` (lines 59-68): indicator chosen by
the length of `board_cards`; lengths 1 and 2 fall through every branch. -/
def streetWrites (board : List (List Char)) : List (ℕ × ℚ) :=
  if board.length = 0 then [(2, 1)]
  else if board.length = 3 then [(3, 1)]
  else if board.length = 4 then [(4, 1)]
  else if board.length ≥ 5 then [(5, 1)]
  else []

/-- Card one-hot block of `_encode_observation`: for each truthy card among
the first `k`, set `base + card_idx` when the index is non-negative. -/
def cardWrites (base k : ℕ) (cards : List (List Char)) : List (ℕ × ℚ) :=
  (cards.take k).filterMap fun c =>
    if c = [] then none
    else if 0 ≤ cardToIndex c then some (base + (cardToIndex c).toNat, 1) else none

/-- Hand-strength block of `_encode_observation` (lines 86-90). The method
`_calculate_hand_strength` it calls on entry is defined nowhere in the
repository (its own tests in tests/poker/test_phase2.py call it as well), so
when both card lists are non-empty the block raises `AttributeError`,
modelled as `none`; otherwise the block writes nothing. -/
def strengthWrites (hole board : List (List Char)) : Option (List (ℕ × ℚ)) :=
  if hole ≠ [] ∧ board ≠ [] then none else some []

/-- One iteration of the pot scan of `_encode_observation` (lines 96-101):
each `R<amt>` adds its amount and counts a raise (`int` may raise, hence
`Option`), each bare `C`/`K` adds the big blind. -/
def potStep (acc : ℤ × ℕ) (a : List Char) : Option (ℤ × ℕ) :=
  if startsWith 'R' a then (pyInt (a.drop 1)).map (fun (v : ℤ) => (acc.1 + v, acc.2 + 1))
  else if a = ['C'] ∨ a = ['K'] then some (acc.1 + 2, acc.2)
  else some acc

/-- Pot scan of `_encode_observation` over the whole action history, from
`pot_size = 0` and `raises_this_street = 0`. -/
def potFold (hist : List (List Char)) : Option (ℤ × ℕ) :=
  hist.foldlM potStep (0, 0)

/-- One slot of the recent-action block of `_encode_observation`
(lines 110-119): slot `i` of the enumeration, token `a`. -/
def historySlot (i : ℕ) (a : List Char) : Option (List (ℕ × ℚ)) :=
  let base := 150 + i * 4
  if a = ['F'] then some [(base, 1)]
  else if a = ['C'] then some [(base + 1, 1)]
  else if a = ['K'] then some [(base + 2, 1)]
  else if startsWith 'R' a then
    (pyInt (a.drop 1)).map fun (v : ℤ) => [(base + 3, min ((v : ℚ) / 400) 1)]
  else some []

/-- The `for i, action in enumerate(...)` loop of the recent-action block,
with `i` the running slot index. -/
def historyWritesAux (i : ℕ) : List (List Char) → Option (List (ℕ × ℚ))
  | [] => some []
  | a :: rest => do
      let w ← historySlot i a
      let ws ← historyWritesAux (i + 1) rest
      pure (w ++ ws)

/-- Recent-action block of `_encode_observation` over the last 8 history
tokens (`action_history[-8:]`). -/
def historyWrites (hist : List (List Char)) : Option (List (ℕ × ℚ)) :=
  historyWritesAux 0 (hist.drop (hist.length - 8))

/-- Bounty block of `_encode_observation` (lines 126-129). The dict always
carries the key `bounty_hits`, so `message.get('bounty_hits', '')` returns
`None`, not `''`, whenever no `Y` clause was parsed, and `len(None)` raises
`TypeError`, modelled as `none`. -/
def bountyWrites (bounty : Option (List Char)) : Option (List (ℕ × ℚ)) :=
  match bounty with
  | none => none
  | some y =>
      match y with
      | c0 :: c1 :: _ =>
          some [(190, if c0 = '1' then 1 else 0), (191, if c1 = '1' then 1 else 0)]
      | _ => some []

/-- Clock feature of `_encode_observation` (lines 54-55), written only when
`message.get('time_remaining')` is truthy (present and non-zero). -/
def timeWrites (t? : Option ℚ) : List (ℕ × ℚ) :=
  match t? with
  | some t => if t ≠ 0 then [(0, min (t / 600) 1)] else []
  | none => []

/-- Player-index feature (lines 56-57), written when present. -/
def playerWrites (p? : Option ℤ) : List (ℕ × ℚ) :=
  match p? with
  | some p => [(1, (p : ℚ))]
  | none => []

/-- Pot and aggression features (lines 103-104) from the pot scan result. -/
def potWrites (pr : ℤ × ℕ) : List (ℕ × ℚ) :=
  [(124, min ((pr.1 : ℚ) / 800) 1), (125, min ((pr.2 : ℚ) / 4) 1)]

/-- Button-position feature (line 107). -/
def buttonWrites (p? : Option ℤ) : List (ℕ × ℚ) :=
  [(140, if p? = some 0 then 1 else 0)]

/-- Bankroll feature (lines 122-123), written when present; the source does
not clamp it. -/
def deltaWrites (d? : Option ℤ) : List (ℕ × ℚ) :=
  match d? with
  | some d => [(182, (d : ℚ) / 400)]
  | none => []

/-- The ordered index/value assignments `_encode_observation` performs on the
zero vector, in source order; `none` marks the exception the source would
raise (`AttributeError` in the strength block, `ValueError` in either
history scan, `TypeError` in the bounty block). In the source the exception
raised is the first one in write order; over `Option` the outcome is the
same `none` either way, so the fallible blocks are sequenced up front. -/
def obsWrites (m : StateMessage) : Option (List (ℕ × ℚ)) := do
  let strengthW ← strengthWrites m.hole_cards m.board_cards
  let pr ← potFold m.action_history
  let histW ← historyWrites m.action_history
  let bountyW ← bountyWrites m.bounty_hits
  pure (timeWrites m.time_remaining ++ playerWrites m.player_index ++
    streetWrites m.board_cards ++ cardWrites 10 2 m.hole_cards ++
    cardWrites 62 5 m.board_cards ++ strengthW ++ potWrites pr ++
    buttonWrites m.player_index ++ histW ++ deltaWrites m.bankroll_delta ++ bountyW)

/-- `PokerGame._encode_observation`: a 250-slot zero vector of 32-bit floats
(values modelled in ℚ), filled by the assignments above; a falsy `message`
(Python `None` or the empty dict) returns the zero vector unchanged. -/
def applyWrites (ws : List (ℕ × ℚ)) (init : List ℚ) : List ℚ :=
  ws.foldl (fun o (iv : ℕ × ℚ) => o.set iv.1 iv.2) init

def encodeObservation (message : Option StateMessage) : Option (List ℚ) :=
  match message with
  | none => some (List.replicate 250 0)
  | some m => (obsWrites m).map fun ws => applyWrites ws (List.replicate 250 0)

/-- The adapter state mutated by `PokerGame.__init__`, `step` and `reset`.
`last_message` models the attribute of the same name read by
`legal_actions` through `hasattr`: `none` stands for attribute-absent or
falsy, and no method of the class ever assigns it. -/
structure GameState where
  current_observation : Option (List ℚ)
  game_over : Bool
  last_reward : ℚ
  last_message : Option StateMessage
deriving Repr, DecidableEq

/-- State after `PokerGame.__init__`. -/
def initState : GameState :=
  { current_observation := none, game_over := false, last_reward := 0, last_message := none }

/-- `PokerGame.legal_actions`: full index range without a truthy
`last_message`, otherwise fold unless the hand is over, then call plus all
raises when facing a raise, else check plus all raises. -/
def legalActions (g : GameState) : List ℕ :=
  match g.last_message with
  | none => List.range 103
  | some msg =>
      let legal := if msg.game_over = false then [0] else []
      match msg.action_history.getLast? with
      | some a =>
          if startsWith 'R' a then legal ++ [1] ++ List.range' 3 100
          else legal ++ [2] ++ List.range' 3 100
      | none => legal ++ [2] ++ List.range' 3 100

/-- `PokerGame.step`. The socket collaborator is modelled by the two inputs
`sendOk` (result of `send_action (actionToPokerCode action)`) and `recv`
(result of `receive_message`). The result is the new adapter state plus the
returned `(observation, reward, done)` triple; `none` marks an exception
escaping from `_encode_observation`. -/
def step (g : GameState) (action : ℤ) (sendOk : Bool) (recv : Option StateMessage) :
    Option (GameState × (Option (List ℚ) × ℚ × Bool)) :=
  if g.game_over then some (g, (g.current_observation, 0, true))
  else
    let _code := actionToPokerCode action
    if sendOk = false then
      some ({ g with game_over := true }, (g.current_observation, -1, true))
    else
      match recv with
      | none => some ({ g with game_over := true }, (g.current_observation, -1, true))
      | some msg =>
          match encodeObservation (some msg) with
          | none => none
          | some obs =>
              let reward : ℚ :=
                match msg.bankroll_delta with
                | some d => (d : ℚ) / 400
                | none => 0
              some ({ g with current_observation := some obs, game_over := msg.game_over },
                (some obs, reward, msg.game_over))

/-- `PokerGame.reset`, from the point the engine has been (re)started:
`engineOk` is the `start_engine` result (false raises `RuntimeError`,
modelled as `none`), `firstMsg` the first received message (`None` included,
which the encoder turns into the zero vector). The source line
`time.sleep(1)` references an unimported module; the intended success path
is modelled. -/
def resetGame (g : GameState) (engineOk : Bool) (firstMsg : Option StateMessage) :
    Option (GameState × List ℚ) :=
  if engineOk = false then none
  else
    match encodeObservation firstMsg with
    | none => none
    | some obs =>
        some ({ g with current_observation := some obs, game_over := false, last_reward := 0 },
          obs)

/-- An `action_history` token as specified for the wire protocol (§3, §6 of
the spec): bare `F`, `C`, `K`, or `R` followed by a positive integer. -/
def validActionToken (a : List Char) : Bool :=
  a = ['F'] || a = ['C'] || a = ['K'] ||
    (startsWith 'R' a && (pyInt (a.drop 1)).elim false (fun v => decide (0 < v)))

/-- A well-formed `StateMessage` in the sense of the spec's data model (§3):
non-negative clock, player index 0 or 1, up to 2/5/2 valid card tokens,
protocol action tokens, and a two-character `'0'`/`'1'` bounty string. -/
def WellFormed (m : StateMessage) : Prop :=
  m.time_remaining.all (fun t => decide (0 ≤ t)) = true ∧
  m.player_index.all (fun p => decide (p = 0 ∨ p = 1)) = true ∧
  m.hole_cards.length ≤ 2 ∧ (∀ c ∈ m.hole_cards, c ∈ validTokens) ∧
  m.board_cards.length ≤ 5 ∧ (∀ c ∈ m.board_cards, c ∈ validTokens) ∧
  m.opponent_hand.length ≤ 2 ∧ (∀ c ∈ m.opponent_hand, c ∈ validTokens) ∧
  (∀ a ∈ m.action_history, validActionToken a = true) ∧
  m.bounty_hits.all (fun y => decide (y.length = 2) && y.all (fun ch => ch = '0' || ch = '1')) = true

instance (m : StateMessage) : Decidable (WellFormed m) := by
  unfold WellFormed; infer_instance

/-- Adapter states reachable through the public interface: `__init__`, then
any sequence of `step` and `reset` calls that return normally. -/
inductive Reachable : GameState → Prop where
  | init : Reachable initState
  | step {g g' : GameState} {a : ℤ} {ok : Bool} {recv : Option StateMessage}
      {out : Option (List ℚ) × ℚ × Bool} :
      Reachable g → step g a ok recv = some (g', out) → Reachable g'
  | reset {g g' : GameState} {ok : Bool} {msg : Option StateMessage} {obs : List ℚ} :
      Reachable g → resetGame g ok msg = some (g', obs) → Reachable g'

/-- A clause carrying a recognised numeric tag (`T`, `P` or `D`) whose
payload fails the corresponding numeric conversion. -/
def failsNumericTag (c : List Char) : Bool :=
  (startsWith 'T' c && (pyFloat (c.drop 1)).isNone) ||
  (startsWith 'P' c && (pyInt (c.drop 1)).isNone) ||
  (startsWith 'D' c && (pyInt (c.drop 1)).isNone)

/-- A clause no branch of the parser loop recognises (also covering the
empty clause, which the loop skips). -/
def unrecognizedClause (c : List Char) : Bool :=
  c = [] ||
    (!startsWith 'T' c && !startsWith 'P' c && !startsWith 'H' c && !startsWith 'B' c &&
     !startsWith 'O' c && !startsWith 'D' c && !startsWith 'Y' c && c ≠ ['Q'] &&
     c ≠ ['F'] && c ≠ ['C'] && c ≠ ['K'] && !startsWith 'R' c)

/-- A well-formed message whose bankroll delta exceeds the starting stack:
`D800` is representable on the wire and the data model (§3) puts no bound on
the signed integer. The `Y` clause is included so that the encoder's bounty
block does not raise. -/
def msgDelta800 : StateMessage :=
  { bankroll_delta := some 800, bounty_hits := some ['0', '0'] }

/-- A well-formed message with both hole and board cards present. -/
def msgHoleBoard : StateMessage :=
  { hole_cards := ["As".data, "Kh".data],
    board_cards := ["2c".data, "3d".data, "4h".data],
    bounty_hits := some ['0', '0'] }

/-- A well-formed flop message (three board cards). -/
def msgFlop : StateMessage :=
  { board_cards := ["9h".data, "Td".data, "Jc".data], bounty_hits := some ['0', '0'] }

/-- A message with a single board card — a `board_cards` length the street
block of the encoder does not map to any street. -/
def msgOneBoard : StateMessage :=
  { board_cards := ["2s".data], bounty_hits := some ['0', '0'] }

/-- A terminal reply carrying a bankroll delta, as in the scripted
end-to-end exchange of §8 of the spec, with a `Y` clause so encoding
succeeds. -/
def msgReward : StateMessage :=
  { bankroll_delta := some 40, game_over := true, bounty_hits := some ['1', '0'] }

theorem applyWrites_nil (init : List ℚ) : applyWrites [] init = init := rfl

theorem applyWrites_cons (p : ℕ × ℚ) (t : List (ℕ × ℚ)) (init : List ℚ) :
    applyWrites (p :: t) init = applyWrites t (init.set p.1 p.2) := rfl

theorem applyWrites_append (u v : List (ℕ × ℚ)) (init : List ℚ) :
    applyWrites (u ++ v) init = applyWrites v (applyWrites u init) := by
  simp [applyWrites, List.foldl_append]

theorem length_applyWrites (ws : List (ℕ × ℚ)) (init : List ℚ) :
    (applyWrites ws init).length = init.length := by
  induction ws generalizing init with
  | nil => rfl
  | cons p t ih => rw [applyWrites_cons, ih, List.length_set]

theorem getD_set_self {α : Type} (l : List α) (i : ℕ) (v d : α) (h : i < l.length) :
    (l.set i v).getD i d = v := by
  induction l generalizing i with
  | nil => simp at h
  | cons a t ih =>
    cases i with
    | zero => rfl
    | succ n => simpa using ih n (by simpa using h)

theorem getD_set_ne {α : Type} (l : List α) {i j : ℕ} (v d : α) (h : i ≠ j) :
    (l.set i v).getD j d = l.getD j d := by
  induction l generalizing i j with
  | nil => rfl
  | cons a t ih =>
    cases i with
    | zero =>
      cases j with
      | zero => exact absurd rfl h
      | succ n => rfl
    | succ n =>
      cases j with
      | zero => rfl
      | succ k =>
        simpa using ih (fun hnk => h (by rw [hnk]))

theorem applyWrites_getD_not_written (ws : List (ℕ × ℚ)) (init : List ℚ) (j : ℕ) (d : ℚ)
    (h : ∀ p ∈ ws, p.1 ≠ j) :
    (applyWrites ws init).getD j d = init.getD j d := by
  induction ws generalizing init with
  | nil => rfl
  | cons p t ih =>
    rw [applyWrites_cons, ih _ (fun q hq => h q (List.mem_cons_of_mem _ hq)),
      getD_set_ne _ _ _ (h p (List.mem_cons_self _ _))]

theorem applyWrites_bounds {lo hi : ℚ} {ws : List (ℕ × ℚ)} {init : List ℚ}
    (h0 : ∀ x ∈ init, lo ≤ x ∧ x ≤ hi) (hw : ∀ p ∈ ws, lo ≤ p.2 ∧ p.2 ≤ hi) :
    ∀ x ∈ applyWrites ws init, lo ≤ x ∧ x ≤ hi := by
  induction ws generalizing init with
  | nil => exact h0
  | cons p t ih =>
    rw [applyWrites_cons]
    refine ih (fun x hx => ?_) (fun q hq => hw q (List.mem_cons_of_mem _ hq))
    rcases List.mem_or_eq_of_mem_set hx with hmem | heq
    · exact h0 x hmem
    · subst heq; exact hw p (List.mem_cons_self _ _)

theorem strIndex_mem {c : Char} {l : List Char} {i : ℕ} (h : strIndex c l = some i) :
    c ∈ l := by
  induction l generalizing i with
  | nil => simp [strIndex] at h
  | cons a t ih =>
    by_cases hac : a = c
    · simp [hac]
    · simp only [strIndex, if_neg hac] at h
      cases ht : strIndex c t with
      | none => simp [ht] at h
      | some k => exact List.mem_cons_of_mem _ (ih ht)

theorem strIndex_lt {c : Char} {l : List Char} {i : ℕ} (h : strIndex c l = some i) :
    i < l.length := by
  induction l generalizing i with
  | nil => simp [strIndex] at h
  | cons a t ih =>
    simp only [strIndex] at h
    by_cases hac : a = c
    · rw [if_pos hac] at h
      injection h with h
      simp [List.length_cons]
      omega
    · rw [if_neg hac] at h
      cases ht : strIndex c t with
      | none => rw [ht] at h; simp at h
      | some k =>
        rw [ht] at h
        simp only [Option.map_some'] at h
        injection h with h
        have hk := ih ht
        simp [List.length_cons]
        omega

theorem cardToIndex_lt (card : List Char) : cardToIndex card < 52 := by
  match card with
  | [] => decide
  | [r] => simp [cardToIndex]
  | r :: s :: x :: rest => simp [cardToIndex]
  | [r, s] =>
    simp only [cardToIndex]
    cases hr : strIndex r ranks with
    | none => simp [hr]
    | some ri =>
      cases hs : strIndex s suits with
      | none => simp [hr, hs]
      | some si =>
        simp only [hr, hs]
        have h1 : ri < 13 := by simpa [ranks] using strIndex_lt hr
        have h2 : si < 4 := by simpa [suits] using strIndex_lt hs
        omega

theorem cardToIndex_mem_validTokens {card : List Char} (h : 0 ≤ cardToIndex card) :
    card ∈ validTokens := by
  match card with
  | [] => exact absurd h (by decide)
  | [r] => simp [cardToIndex] at h
  | r :: s :: x :: rest => simp [cardToIndex] at h
  | [r, s] =>
    simp only [cardToIndex] at h
    cases hr : strIndex r ranks with
    | none => rw [hr] at h; simp at h
    | some ri =>
      cases hs : strIndex s suits with
      | none => rw [hr, hs] at h; simp at h
      | some si =>
        have hrm : r ∈ ranks := strIndex_mem hr
        have hsm : s ∈ suits := strIndex_mem hs
        simp only [validTokens, List.mem_flatMap]
        exact ⟨r, hrm, List.mem_map.mpr ⟨s, hsm, rfl⟩⟩

theorem timeWrites_idx {t? : Option ℚ} : ∀ p ∈ timeWrites t?, p.1 = 0 := by
  intro p hp
  cases t? with
  | none => simp [timeWrites] at hp
  | some t =>
    simp only [timeWrites] at hp
    split at hp <;> simp at hp
    subst hp; rfl

theorem playerWrites_idx {p? : Option ℤ} : ∀ p ∈ playerWrites p?, p.1 = 1 := by
  intro p hp
  cases p? with
  | none => simp [playerWrites] at hp
  | some v => simp [playerWrites] at hp; subst hp; rfl

theorem potWrites_idx {pr : ℤ × ℕ} : ∀ p ∈ potWrites pr, p.1 = 124 ∨ p.1 = 125 := by
  intro p hp
  simp [potWrites] at hp
  rcases hp with h | h <;> subst h <;> [left; right] <;> rfl

theorem buttonWrites_idx {p? : Option ℤ} : ∀ p ∈ buttonWrites p?, p.1 = 140 := by
  intro p hp
  simp [buttonWrites] at hp
  subst hp; rfl

theorem deltaWrites_idx {d? : Option ℤ} : ∀ p ∈ deltaWrites d?, p.1 = 182 := by
  intro p hp
  cases d? with
  | none => simp [deltaWrites] at hp
  | some d => simp [deltaWrites] at hp; subst hp; rfl

theorem bountyWrites_idx {b : Option (List Char)} {ws : List (ℕ × ℚ)}
    (h : bountyWrites b = some ws) : ∀ p ∈ ws, p.1 = 190 ∨ p.1 = 191 := by
  intro p hp
  cases b with
  | none => simp [bountyWrites] at h
  | some y =>
    match y with
    | [] => simp [bountyWrites] at h; rw [h] at hp; simp at hp
    | [c0] => simp [bountyWrites] at h; rw [h] at hp; simp at hp
    | c0 :: c1 :: rest =>
      simp only [bountyWrites, Option.some.injEq] at h
      rw [← h] at hp
      simp at hp
      rcases hp with h1 | h1 <;> subst h1 <;> [left; right] <;> rfl

theorem streetWrites_idx {board : List (List Char)} :
    ∀ p ∈ streetWrites board, 2 ≤ p.1 ∧ p.1 ≤ 5 := by
  intro p hp
  simp only [streetWrites] at hp
  split_ifs at hp <;> simp at hp <;> subst hp <;> omega

theorem cardWrites_idx {base k : ℕ} {cards : List (List Char)} :
    ∀ p ∈ cardWrites base k cards, base ≤ p.1 ∧ p.1 < base + 52 := by
  intro p hp
  simp only [cardWrites, List.mem_filterMap] at hp
  obtain ⟨c, hc, hf⟩ := hp
  split at hf
  · exact absurd hf (by simp)
  · split at hf
    · rename_i hpos
      have hlt := cardToIndex_lt c
      rw [Option.some.injEq] at hf
      rw [← hf]
      constructor
      · exact Nat.le_add_right _ _
      · have : (cardToIndex c).toNat < 52 := by omega
        omega
    · exact absurd hf (by simp)

theorem strengthWrites_eq {hole board : List (List Char)} {ws : List (ℕ × ℚ)}
    (h : strengthWrites hole board = some ws) : ws = [] := by
  simp only [strengthWrites] at h
  split at h
  · exact absurd h (by simp)
  · simpa using h.symm

theorem historySlot_spec {i : ℕ} {a : List Char} {ws : List (ℕ × ℚ)}
    (h : historySlot i a = some ws) :
    ∀ p ∈ ws, (150 + i * 4 ≤ p.1 ∧ p.1 ≤ 150 + i * 4 + 3) ∧ p.2 ≤ 1 := by
  intro p hp
  simp only [historySlot] at h
  split_ifs at h with h1 h2 h3 h4
  · rw [Option.some.injEq] at h; rw [← h] at hp; simp at hp
    subst hp; exact ⟨by omega, by norm_num⟩
  · rw [Option.some.injEq] at h; rw [← h] at hp; simp at hp
    subst hp; exact ⟨by omega, by norm_num⟩
  · rw [Option.some.injEq] at h; rw [← h] at hp; simp at hp
    subst hp; exact ⟨by omega, by norm_num⟩
  · cases hv : pyInt (a.drop 1) with
    | none => rw [hv] at h; simp at h
    | some v =>
      simp only [hv, Option.map_some', Option.some.injEq] at h
      rw [← h] at hp; simp at hp
      subst hp
      exact ⟨by omega, min_le_right _ _⟩
  · rw [Option.some.injEq] at h; rw [← h] at hp; simp at hp

theorem historyWritesAux_spec {l : List (List Char)} :
    ∀ {i : ℕ} {ws : List (ℕ × ℚ)}, historyWritesAux i l = some ws → i + l.length ≤ 8 →
      ∀ p ∈ ws, (150 ≤ p.1 ∧ p.1 ≤ 181) ∧ p.2 ≤ 1 := by
  induction l with
  | nil => intro i ws h _ p hp; simp [historyWritesAux] at h; rw [h] at hp; simp at hp
  | cons a rest ih =>
    intro i ws h hlen p hp
    simp only [historyWritesAux, Option.bind_eq_bind, Option.bind_eq_some] at h
    obtain ⟨w, hw, h2⟩ := h
    obtain ⟨ws2, hws2, heq⟩ := h2
    simp only [Option.pure_def, Option.some.injEq] at heq
    rw [← heq] at hp
    rcases List.mem_append.mp hp with hmem | hmem
    · have hs := historySlot_spec hw p hmem
      have hi : i ≤ 7 := by simp [List.length_cons] at hlen; omega
      refine ⟨⟨by omega, by omega⟩, hs.2⟩
    · exact ih hws2 (by simp [List.length_cons] at hlen; omega) p hmem

theorem historyWrites_spec {hist : List (List Char)} {ws : List (ℕ × ℚ)}
    (h : historyWrites hist = some ws) :
    ∀ p ∈ ws, (150 ≤ p.1 ∧ p.1 ≤ 181) ∧ p.2 ≤ 1 := by
  refine historyWritesAux_spec h ?_
  simp [List.length_drop]
  omega

theorem getD_replicate {α : Type} {n j : ℕ} (a d : α) (h : j < n) :
    (List.replicate n a).getD j d = a := by
  induction n generalizing j with
  | zero => omega
  | succ k ih =>
    cases j with
    | zero => rfl
    | succ m => simpa [List.replicate_succ] using ih (by omega)

theorem timeWrites_val {t? : Option ℚ} (h : t?.all (fun t => decide (0 ≤ t)) = true) :
    ∀ p ∈ timeWrites t?, 0 ≤ p.2 ∧ p.2 ≤ 1 := by
  intro p hp
  cases t? with
  | none => simp [timeWrites] at hp
  | some t =>
    simp only [Option.all_some, decide_eq_true_eq] at h
    simp only [timeWrites] at hp
    split at hp <;> simp at hp
    subst hp
    exact ⟨le_min (div_nonneg h (by norm_num)) zero_le_one, min_le_right _ _⟩

theorem playerWrites_val {p? : Option ℤ}
    (h : p?.all (fun p => decide (p = 0 ∨ p = 1)) = true) :
    ∀ p ∈ playerWrites p?, 0 ≤ p.2 ∧ p.2 ≤ 1 := by
  intro p hp
  cases p? with
  | none => simp [playerWrites] at hp
  | some v =>
    simp only [Option.all_some, decide_eq_true_eq] at h
    simp [playerWrites] at hp
    subst hp
    rcases h with h | h <;> subst h <;> norm_num

theorem streetWrites_val {board : List (List Char)} : ∀ p ∈ streetWrites board, p.2 = 1 := by
  intro p hp
  simp only [streetWrites] at hp
  split_ifs at hp <;> simp at hp <;> subst hp <;> rfl

theorem cardWrites_val {base k : ℕ} {cards : List (List Char)} :
    ∀ p ∈ cardWrites base k cards, p.2 = 1 := by
  intro p hp
  simp only [cardWrites, List.mem_filterMap] at hp
  obtain ⟨c, hc, hf⟩ := hp
  split at hf
  · exact absurd hf (by simp)
  · split at hf
    · rw [Option.some.injEq] at hf; rw [← hf]
    · exact absurd hf (by simp)

theorem potStep_nonneg {acc pr : ℤ × ℕ} {a : List Char}
    (hval : validActionToken a = true) (hacc : 0 ≤ acc.1) (h : potStep acc a = some pr) :
    0 ≤ pr.1 := by
  simp only [potStep] at h
  split_ifs at h with h1 h2
  · cases hv : pyInt (a.drop 1) with
    | none => rw [hv] at h; simp at h
    | some v =>
      simp only [hv, Option.map_some', Option.some.injEq] at h
      have hvpos : 0 < v := by
        simp only [validActionToken, h1, hv, Option.elim, Bool.true_and, Bool.or_eq_true,
          decide_eq_true_eq] at hval
        rcases hval with ((h' | h') | h') | h'
        · rw [h'] at h1; simp [startsWith] at h1
        · rw [h'] at h1; simp [startsWith] at h1
        · rw [h'] at h1; simp [startsWith] at h1
        · exact h'
      rw [← h]
      simp only []
      omega
  · rw [Option.some.injEq] at h; rw [← h]; simp only []; omega
  · rw [Option.some.injEq] at h; rw [← h]; exact hacc

theorem foldlM_potStep_nonneg :
    ∀ {hist : List (List Char)} {acc pr : ℤ × ℕ},
      (∀ a ∈ hist, validActionToken a = true) → 0 ≤ acc.1 →
      hist.foldlM potStep acc = some pr → 0 ≤ pr.1 := by
  intro hist
  induction hist with
  | nil => intro acc pr _ hacc h; simp [List.foldlM] at h; rw [← h]; exact hacc
  | cons a rest ih =>
    intro acc pr hval hacc h
    rw [List.foldlM_cons] at h
    cases ha : potStep acc a with
    | none => rw [ha] at h; simp at h
    | some acc2 =>
      rw [ha] at h
      simp only [Option.bind_eq_bind, Option.some_bind] at h
      exact ih (fun x hx => hval x (List.mem_cons_of_mem _ hx))
        (potStep_nonneg (hval a (List.mem_cons_self _ _)) hacc ha) h

theorem potWrites_val {pr : ℤ × ℕ} (h : 0 ≤ pr.1) :
    ∀ p ∈ potWrites pr, 0 ≤ p.2 ∧ p.2 ≤ 1 := by
  intro p hp
  simp [potWrites] at hp
  rcases hp with h1 | h1 <;> subst h1
  · exact ⟨le_min (div_nonneg (by exact_mod_cast h) (by norm_num)) zero_le_one,
      min_le_right _ _⟩
  · exact ⟨le_min (div_nonneg (by positivity) (by norm_num)) zero_le_one, min_le_right _ _⟩

theorem buttonWrites_val {p? : Option ℤ} : ∀ p ∈ buttonWrites p?, 0 ≤ p.2 ∧ p.2 ≤ 1 := by
  intro p hp
  simp [buttonWrites] at hp
  subst hp
  split <;> norm_num

theorem historySlot_nonneg {i : ℕ} {a : List Char} {ws : List (ℕ × ℚ)}
    (hval : validActionToken a = true) (h : historySlot i a = some ws) :
    ∀ p ∈ ws, 0 ≤ p.2 := by
  intro p hp
  simp only [historySlot] at h
  split_ifs at h with h1 h2 h3 h4
  · rw [Option.some.injEq] at h; rw [← h] at hp; simp at hp; subst hp; norm_num
  · rw [Option.some.injEq] at h; rw [← h] at hp; simp at hp; subst hp; norm_num
  · rw [Option.some.injEq] at h; rw [← h] at hp; simp at hp; subst hp; norm_num
  · cases hv : pyInt (a.drop 1) with
    | none => rw [hv] at h; simp at h
    | some v =>
      simp only [hv, Option.map_some', Option.some.injEq] at h
      have hvpos : 0 < v := by
        simp only [validActionToken, h4, hv, Option.elim, Bool.true_and, Bool.or_eq_true,
          decide_eq_true_eq] at hval
        rcases hval with ((h' | h') | h') | h'
        · exact absurd h' h1
        · exact absurd h' h2
        · exact absurd h' h3
        · exact h'
      rw [← h] at hp; simp at hp; subst hp
      have : (0 : ℚ) ≤ (v : ℚ) / 400 := div_nonneg (by exact_mod_cast hvpos.le) (by norm_num)
      exact le_min this zero_le_one
  · rw [Option.some.injEq] at h; rw [← h] at hp; simp at hp

theorem historyWritesAux_nonneg {l : List (List Char)} :
    ∀ {i : ℕ} {ws : List (ℕ × ℚ)}, (∀ a ∈ l, validActionToken a = true) →
      historyWritesAux i l = some ws → ∀ p ∈ ws, 0 ≤ p.2 := by
  induction l with
  | nil => intro i ws _ h p hp; simp [historyWritesAux] at h; rw [h] at hp; simp at hp
  | cons a rest ih =>
    intro i ws hval h p hp
    simp only [historyWritesAux, Option.bind_eq_bind, Option.bind_eq_some] at h
    obtain ⟨w, hw, h2⟩ := h
    obtain ⟨ws2, hws2, heq⟩ := h2
    simp only [Option.pure_def, Option.some.injEq] at heq
    rw [← heq] at hp
    rcases List.mem_append.mp hp with hmem | hmem
    · exact historySlot_nonneg (hval a (List.mem_cons_self _ _)) hw p hmem
    · exact ih (fun x hx => hval x (List.mem_cons_of_mem _ hx)) hws2 p hmem

theorem historyWrites_nonneg {hist : List (List Char)} {ws : List (ℕ × ℚ)}
    (hval : ∀ a ∈ hist, validActionToken a = true) (h : historyWrites hist = some ws) :
    ∀ p ∈ ws, 0 ≤ p.2 :=
  historyWritesAux_nonneg (fun a ha => hval a (List.drop_subset _ _ ha)) h

theorem deltaWrites_val {d? : Option ℤ} (h : ∀ d ∈ d?, -400 ≤ d ∧ d ≤ 400) :
    ∀ p ∈ deltaWrites d?, -1 ≤ p.2 ∧ p.2 ≤ 1 := by
  intro p hp
  cases d? with
  | none => simp [deltaWrites] at hp
  | some d =>
    simp [deltaWrites] at hp
    subst hp
    obtain ⟨hlo, hhi⟩ := h d rfl
    constructor
    · rw [neg_le, ← neg_div]
      rw [div_le_one (by norm_num : (0:ℚ) < 400)]
      exact_mod_cast neg_le_of_neg_le (by exact_mod_cast hlo)
    · rw [div_le_one (by norm_num : (0:ℚ) < 400)]
      exact_mod_cast hhi

theorem bountyWrites_val {b : Option (List Char)} {ws : List (ℕ × ℚ)}
    (h : bountyWrites b = some ws) : ∀ p ∈ ws, 0 ≤ p.2 ∧ p.2 ≤ 1 := by
  intro p hp
  cases b with
  | none => simp [bountyWrites] at h
  | some y =>
    match y with
    | [] => simp [bountyWrites] at h; rw [h] at hp; simp at hp
    | [c0] => simp [bountyWrites] at h; rw [h] at hp; simp at hp
    | c0 :: c1 :: rest =>
      simp only [bountyWrites, Option.some.injEq] at h
      rw [← h] at hp
      simp at hp
      rcases hp with h1 | h1 <;> subst h1 <;> constructor <;> split <;> norm_num

/-- Success decomposition of `obsWrites`. -/
theorem obsWrites_eq {m : StateMessage} {ws : List (ℕ × ℚ)} (h : obsWrites m = some ws) :
    ∃ strengthW pr histW bountyW,
      strengthWrites m.hole_cards m.board_cards = some strengthW ∧
      potFold m.action_history = some pr ∧
      historyWrites m.action_history = some histW ∧
      bountyWrites m.bounty_hits = some bountyW ∧
      ws = timeWrites m.time_remaining ++ playerWrites m.player_index ++
        streetWrites m.board_cards ++ cardWrites 10 2 m.hole_cards ++
        cardWrites 62 5 m.board_cards ++ strengthW ++ potWrites pr ++
        buttonWrites m.player_index ++ histW ++ deltaWrites m.bankroll_delta ++ bountyW := by
  simp only [obsWrites, Option.bind_eq_bind, Option.bind_eq_some, Option.pure_def,
    Option.some.injEq] at h
  obtain ⟨sW, hsW, pr, hpr, hW, hhW, bW, hbW, heq⟩ := h
  exact ⟨sW, pr, hW, bW, hsW, hpr, hhW, hbW, heq.symm⟩

theorem set_oob {α : Type} (l : List α) (i : ℕ) (v : α) (h : l.length ≤ i) :
    l.set i v = l := by
  induction l generalizing i with
  | nil => rfl
  | cons a t ih =>
    cases i with
    | zero => simp at h
    | succ n => simp only [List.set_cons_succ]; rw [ih n (by simpa using h)]

theorem applyWrites_getD_congr {ws : List (ℕ × ℚ)} {X Y : List ℚ} {j : ℕ} {d : ℚ}
    (hlen : X.length = Y.length) (hXY : X.getD j d = Y.getD j d) :
    (applyWrites ws X).getD j d = (applyWrites ws Y).getD j d := by
  induction ws generalizing X Y with
  | nil => exact hXY
  | cons p t ih =>
    rw [applyWrites_cons, applyWrites_cons]
    refine ih (by rw [List.length_set, List.length_set, hlen]) ?_
    by_cases hij : p.1 = j
    · subst hij
      by_cases hb : p.1 < X.length
      · rw [getD_set_self _ _ _ _ hb, getD_set_self _ _ _ _ (hlen ▸ hb)]
      · rw [set_oob _ _ _ (by omega), set_oob _ _ _ (by omega), hXY]
    · rw [getD_set_ne _ _ _ hij, getD_set_ne _ _ _ hij, hXY]

/-- The value a successful encode leaves at a street index 2..5 is decided by
the street block alone over the zero vector. -/
theorem encode_getD_street {m : StateMessage} {o : List ℚ}
    (h : encodeObservation (some m) = some o) {j : ℕ} (h2 : 2 ≤ j) (h5 : j ≤ 5) :
    o.getD j 0 = (applyWrites (streetWrites m.board_cards) (List.replicate 250 0)).getD j 0 := by
  simp only [encodeObservation, Option.map_eq_some'] at h
  obtain ⟨ws, hws, ho⟩ := h
  obtain ⟨sW, pr, histW, bW, hsW, hpr, hhW, hbW, hwseq⟩ := obsWrites_eq hws
  have hsW0 : sW = [] := strengthWrites_eq hsW
  subst hsW0
  rw [← ho, hwseq]
  rw [applyWrites_append, applyWrites_append, applyWrites_append, applyWrites_append,
    applyWrites_append, applyWrites_append, applyWrites_append, applyWrites_append,
    applyWrites_append, applyWrites_append]
  rw [applyWrites_getD_not_written bW _ j 0
    (fun p hp => by rcases bountyWrites_idx hbW p hp with h' | h' <;> omega)]
  rw [applyWrites_getD_not_written _ _ j 0
    (fun p hp => by have := deltaWrites_idx p hp; omega)]
  rw [applyWrites_getD_not_written histW _ j 0
    (fun p hp => by have := (historyWrites_spec hhW p hp).1; omega)]
  rw [applyWrites_getD_not_written _ _ j 0
    (fun p hp => by have := buttonWrites_idx p hp; omega)]
  rw [applyWrites_getD_not_written _ _ j 0
    (fun p hp => by rcases potWrites_idx p hp with h' | h' <;> omega)]
  rw [applyWrites_nil]
  rw [applyWrites_getD_not_written _ _ j 0
    (fun p hp => by have := (cardWrites_idx p hp).1; omega)]
  rw [applyWrites_getD_not_written _ _ j 0
    (fun p hp => by have := (cardWrites_idx p hp).1; omega)]
  refine applyWrites_getD_congr ?_ ?_
  · rw [length_applyWrites, length_applyWrites]
  · rw [applyWrites_getD_not_written _ _ j 0
      (fun p hp => by have := playerWrites_idx p hp; omega)]
    rw [applyWrites_getD_not_written _ _ j 0
      (fun p hp => by have := timeWrites_idx p hp; omega)]

/-- Value of the street block over the zero vector at each street index. -/
theorem streetWrites_getD (board : List (List Char)) {j : ℕ} (h2 : 2 ≤ j) (h5 : j ≤ 5) :
    (applyWrites (streetWrites board) (List.replicate 250 0)).getD j 0 =
      (if (board.length = 0 ∧ j = 2) ∨ (board.length = 3 ∧ j = 3) ∨
          (board.length = 4 ∧ j = 4) ∨ (5 ≤ board.length ∧ j = 5) then (1 : ℚ) else 0) := by
  have hz : (List.replicate 250 (0 : ℚ)).getD j 0 = 0 := getD_replicate _ _ (by omega)
  by_cases hb0 : board.length = 0
  · have hst : streetWrites board = [(2, 1)] := by simp [streetWrites, hb0]
    rw [hst, applyWrites_cons, applyWrites_nil]
    by_cases hj : j = 2
    · subst hj
      rw [getD_set_self _ _ _ _ (by simp), if_pos (Or.inl ⟨hb0, rfl⟩)]
    · rw [getD_set_ne _ _ _ (by omega), hz, if_neg (by omega)]
  · by_cases hb3 : board.length = 3
    · have hst : streetWrites board = [(3, 1)] := by simp [streetWrites, hb0, hb3]
      rw [hst, applyWrites_cons, applyWrites_nil]
      by_cases hj : j = 3
      · subst hj
        rw [getD_set_self _ _ _ _ (by simp), if_pos (Or.inr (Or.inl ⟨hb3, rfl⟩))]
      · rw [getD_set_ne _ _ _ (by omega), hz, if_neg (by omega)]
    · by_cases hb4 : board.length = 4
      · have hst : streetWrites board = [(4, 1)] := by simp [streetWrites, hb0, hb3, hb4]
        rw [hst, applyWrites_cons, applyWrites_nil]
        by_cases hj : j = 4
        · subst hj
          rw [getD_set_self _ _ _ _ (by simp),
            if_pos (Or.inr (Or.inr (Or.inl ⟨hb4, rfl⟩)))]
        · rw [getD_set_ne _ _ _ (by omega), hz, if_neg (by omega)]
      · by_cases hb5 : 5 ≤ board.length
        · have hst : streetWrites board = [(5, 1)] := by
            simp [streetWrites, hb0, hb3, hb4, hb5]
          rw [hst, applyWrites_cons, applyWrites_nil]
          by_cases hj : j = 5
          · subst hj
            rw [getD_set_self _ _ _ _ (by simp),
              if_pos (Or.inr (Or.inr (Or.inr ⟨hb5, rfl⟩)))]
          · rw [getD_set_ne _ _ _ (by omega), hz, if_neg (by omega)]
        · have hst : streetWrites board = [] := by
            simp [streetWrites, hb0, hb3, hb4, hb5]
          rw [hst, applyWrites_nil, hz, if_neg (by omega)]


theorem processClause_unrecognized {c : List Char} (h : unrecognizedClause c = true)
    (m : StateMessage) : processClause m c = some m := by
  by_cases hnil : c = []
  · simp [processClause, hnil]
  · simp only [unrecognizedClause, Bool.or_eq_true, Bool.and_eq_true,
      Bool.not_eq_true', decide_eq_true_eq] at h
    rcases h with h | h
    · exact absurd h hnil
    · obtain ⟨⟨⟨⟨⟨⟨⟨⟨⟨⟨⟨hT, hP⟩, hH⟩, hB⟩, hO⟩, hD⟩, hY⟩, hQ⟩, hF⟩, hC⟩, hK⟩, hR⟩ := h
      simp [processClause, hnil, hT, hP, hH, hB, hO, hD, hY, hQ, hF, hC, hK, hR]

theorem foldlM_unrecognized {cs : List (List Char)}
    (h : ∀ c ∈ cs, unrecognizedClause c = true) (m : StateMessage) :
    cs.foldlM processClause m = some m := by
  induction cs with
  | nil => rfl
  | cons c t ih =>
    rw [List.foldlM_cons, processClause_unrecognized (h c (List.mem_cons_self _ _)) m]
    simpa using ih (fun x hx => h x (List.mem_cons_of_mem _ hx))

theorem foldlM_abort {cs : List (List Char)} {c : List Char} (hc : c ∈ cs)
    (hf : ∀ m, processClause m c = none) :
    ∀ m, cs.foldlM processClause m = none := by
  induction cs with
  | nil => exact absurd hc (List.not_mem_nil c)
  | cons a t ih =>
    intro m
    rw [List.foldlM_cons]
    rcases List.mem_cons.mp hc with rfl | hmem
    · rw [hf m]; rfl
    · cases ha : processClause m a with
      | none => rfl
      | some m2 => simpa [ha] using ih hmem m2

theorem processClause_failsNumeric {c : List Char} (h : failsNumericTag c = true)
    (m : StateMessage) : processClause m c = none := by
  simp only [failsNumericTag, Bool.or_eq_true, Bool.and_eq_true,
    Option.isNone_iff_eq_none] at h
  rcases h with (⟨hT, hf⟩ | ⟨hP, hf⟩) | ⟨hD, hf⟩
  · cases c with
    | nil => simp [startsWith] at hT
    | cons x rest =>
      have hx : x = 'T' := by simpa [startsWith] using hT
      subst hx
      rw [List.drop_succ_cons, List.drop_zero] at hf
      simp [processClause, startsWith, hf]
  · cases c with
    | nil => simp [startsWith] at hP
    | cons x rest =>
      have hx : x = 'P' := by simpa [startsWith] using hP
      subst hx
      rw [List.drop_succ_cons, List.drop_zero] at hf
      simp [processClause, startsWith, hf]
  · cases c with
    | nil => simp [startsWith] at hD
    | cons x rest =>
      have hx : x = 'D' := by simpa [startsWith] using hD
      subst hx
      rw [List.drop_succ_cons, List.drop_zero] at hf
      simp [processClause, startsWith, hf]

theorem cardToIndex_cases (card : List Char) :
    cardToIndex card = -1 ∨ 0 ≤ cardToIndex card := by
  match card with
  | [] => exact Or.inl rfl
  | [r] => exact Or.inl rfl
  | r :: s :: x :: rest => exact Or.inl rfl
  | [r, s] =>
    simp only [cardToIndex]
    cases hr : strIndex r ranks with
    | none => simp
    | some ri =>
      cases hs : strIndex s suits with
      | none => simp
      | some si => right; positivity

/-- Claim C6: `_card_to_index` computes `rank_index * 4 + suit_index` and is
a bijection from the 52 valid two-character card tokens onto `[0, 52)` (in
canonical order), and every other string maps to the sentinel `-1` — never
a value inside the index space, never an exception (totality is by
construction of `cardToIndex`). -/
theorem c6_card_index_bijection :
    validTokens.map cardToIndex = (List.range 52).map Int.ofNat ∧
    validTokens.Nodup ∧
    ∀ card : List Char, card ∉ validTokens → cardToIndex card = -1 := by
  refine ⟨by decide, by decide, fun card hc => ?_⟩
  rcases cardToIndex_cases card with h | h
  · exact h
  · exact absurd (cardToIndex_mem_validTokens h) hc

/-- Witness for C6 at the malformed tokens named by the spec. -/
theorem c6_witness :
    cardToIndex "Xs".data = -1 ∧ cardToIndex "2x".data = -1 ∧
    cardToIndex "".data = -1 ∧ cardToIndex "A".data = -1 :=
  ⟨c6_card_index_bijection.2.2 _ (by decide), c6_card_index_bijection.2.2 _ (by decide),
   c6_card_index_bijection.2.2 _ (by decide), c6_card_index_bijection.2.2 _ (by decide)⟩

/-- Claim C7: `_action_to_poker_code` is total over all integers: 0 folds,
1 calls, 2 checks, and every index outside `[0, 103)` decodes to the safe
default check instead of raising. -/
theorem c7_decode_total :
    actionToPokerCode 0 = ['F'] ∧ actionToPokerCode 1 = ['C'] ∧
    actionToPokerCode 2 = ['K'] ∧
    ∀ a : ℤ, a < 0 ∨ 103 ≤ a → actionToPokerCode a = ['K'] := by
  refine ⟨by decide, by decide, by decide, fun a ha => ?_⟩
  unfold actionToPokerCode
  split_ifs <;> first | rfl | omega

/-- Witness for C7 at 999 and at a negative index. -/
theorem c7_witness : actionToPokerCode 999 = ['K'] ∧ actionToPokerCode (-5) = ['K'] :=
  ⟨c7_decode_total.2.2.2 999 (by omega), c7_decode_total.2.2.2 (-5) (by omega)⟩

/-- Counterexample for C2: the raise amount drops from 400 (the last
strategic index, 20) to 2 (the first linear index, 21), so the mapping is
not non-decreasing over the whole range `[3, 103)`. -/
theorem c2_counterexample :
    decodeRaiseAmount 20 = some 400 ∧ decodeRaiseAmount 21 = some 2 ∧
    ¬(∀ i j v w : ℤ, 3 ≤ i → i ≤ j → j < 103 →
        raiseAmountOf (actionToPokerCode i) = some v →
        raiseAmountOf (actionToPokerCode j) = some w → v ≤ w) := by
  refine ⟨by decide, by decide, fun h => ?_⟩
  have h20 : raiseAmountOf (actionToPokerCode 20) = some 400 := by decide
  have h21 : raiseAmountOf (actionToPokerCode 21) = some 2 := by decide
  have := h 20 21 400 2 (by norm_num) (by norm_num) (by norm_num) h20 h21
  norm_num at this

/-- Claim C2 (amended): `Decode 3` is the minimum configured raise `R2` and
`Decode 102` the maximum `R400`; every raise index in `[3, 103)` decodes to
an amount within `[min_raise, max_raise]`; and the amount is non-decreasing
in the index within each of the two addressing blocks — the strategic
indices 3..20 and the linear indices 21..102 — separately (at the block
boundary 20→21 it drops from 400 to 2). -/
theorem c2_raise_mapping :
    decodeRaiseAmount 3 = some ((min_raise : ℤ)) ∧
    decodeRaiseAmount 102 = some ((max_raise : ℤ)) ∧
    (∀ i : ℕ, i < 103 → 3 ≤ i →
      (decodeRaiseAmount i).isSome = true ∧
      (min_raise : ℤ) ≤ (decodeRaiseAmount i).getD 0 ∧
      (decodeRaiseAmount i).getD 0 ≤ (max_raise : ℤ)) ∧
    (∀ i : ℕ, i < 20 → 3 ≤ i →
      (decodeRaiseAmount i).getD 0 ≤ (decodeRaiseAmount (i + 1)).getD 0) ∧
    (∀ i : ℕ, i < 102 → 21 ≤ i →
      (decodeRaiseAmount i).getD 0 ≤ (decodeRaiseAmount (i + 1)).getD 0) := by
  refine ⟨by decide, by decide, ?_, ?_, ?_⟩ <;> decide

/-- Witness for C2 at a linear-block index. -/
theorem c2_witness :
    (decodeRaiseAmount 50).isSome = true ∧
    (min_raise : ℤ) ≤ (decodeRaiseAmount 50).getD 0 ∧
    (decodeRaiseAmount 50).getD 0 ≤ (max_raise : ℤ) :=
  c2_raise_mapping.2.2.1 50 (by norm_num) (by norm_num)

/-- Counterexample for C4: a `T` clause with a non-numeric payload makes
`receive_message` return no message at all — the whole line is lost, it is
not the case that the remaining clauses are parsed into a `StateMessage`. -/
theorem c4_counterexample : receiveMessage "Tabc P0".data = none := by decide

/-- Claim C4 (amended): a numeric parse failure on a recognized tag (`T`,
`P` or `D` with a payload the numeric conversion rejects) aborts parsing of
the WHOLE line: the catch-all handler turns the exception into `None` — the
same signal as an empty line — rather than skipping the clause; no
exception escapes. -/
theorem c4_parse_abort (line : List Char) (h1 : stripWS line ≠ [])
    (c : List Char) (hc : c ∈ splitOnChar ' ' (stripWS line))
    (hf : failsNumericTag c = true) :
    receiveMessage line = none := by
  simp only [receiveMessage]
  rw [if_neg h1]
  exact foldlM_abort hc (processClause_failsNumeric hf) defaultMessage

/-- Witness for C4 at a `D` clause with a non-numeric payload. -/
theorem c4_witness : receiveMessage "Dxy P0".data = none :=
  c4_parse_abort _ (by decide) "Dxy".data (by decide) (by decide)

/-- Claim C8: the empty line yields no message (`None`, distinct by
construction from any `StateMessage`), while a non-empty line none of whose
clauses is recognized yields the all-default best-effort `StateMessage`
without raising. -/
theorem c8_empty_vs_garbled :
    receiveMessage "".data = none ∧
    ∀ line : List Char, stripWS line ≠ [] →
      (∀ c ∈ splitOnChar ' ' (stripWS line), unrecognizedClause c = true) →
      receiveMessage line = some defaultMessage := by
  refine ⟨by decide, fun line h1 h2 => ?_⟩
  simp only [receiveMessage]
  rw [if_neg h1]
  exact foldlM_unrecognized h2 defaultMessage

/-- Witness for C8 at the garbled line named by the spec. -/
theorem c8_witness : receiveMessage "INVALID MESSAGE FORMAT".data = some defaultMessage :=
  c8_empty_vs_garbled.2 _ (by decide) (by decide)

/-- Claim C1 (evaluation at the failing inputs): `_encode_observation`
raises on the all-defaults message — the parser stores `bounty_hits = None`,
`message.get('bounty_hits', '')` returns that `None` because the key is
present, and `len(None)` is a `TypeError` — and on any well-formed message
with both hole and board cards, where it calls the nowhere-defined
`_calculate_hand_strength` (an `AttributeError`). Both exceptions are
modelled as `none`. -/
theorem c1_encode_raises :
    encodeObservation (some defaultMessage) = none ∧
    encodeObservation (some msgHoleBoard) = none := by
  constructor <;>
    simp [encodeObservation, obsWrites, strengthWrites, potFold, potStep, historyWrites,
      historyWritesAux, bountyWrites, defaultMessage, msgHoleBoard]

/-- Counterexample for C3: the well-formed message carrying `D800` (a delta
the data model does not bound) encodes successfully and leaves the
unclamped value `800 / 400 = 2 ∉ [-1, 1]` at feature index 182. -/
theorem c3_counterexample :
    WellFormed msgDelta800 ∧
    (encodeObservation (some msgDelta800)).isSome = true ∧
    ((encodeObservation (some msgDelta800)).getD []).getD 182 0 = 2 ∧
    ¬(((encodeObservation (some msgDelta800)).getD []).getD 182 0 ≤ 1) := by
  refine ⟨by decide, ?_, ?_, ?_⟩ <;>
    simp [encodeObservation, obsWrites, strengthWrites, potFold, potStep, historyWrites,
      historyWritesAux, bountyWrites, timeWrites, playerWrites, potWrites, buttonWrites,
      deltaWrites, streetWrites, cardWrites, applyWrites_cons, applyWrites_nil,
      getD_set_ne, getD_set_self, msgDelta800] <;> norm_num

/-- Claim C3 (amended): whenever the encoder returns at all (it raises when
both card lists are non-empty, and when `bounty_hits` is absent), the
observation has exactly the configured length 250; and if additionally the
bankroll delta is within plus/minus the 400-chip starting stack — the
source divides by 400 without clamping — every element lies in `[-1, 1]`. -/
theorem c3_bounded_observation (m : StateMessage) (hwf : WellFormed m)
    (o : List ℚ) (h : encodeObservation (some m) = some o) :
    o.length = 250 ∧
    ((∀ d ∈ m.bankroll_delta, -400 ≤ d ∧ d ≤ 400) → ∀ x ∈ o, -1 ≤ x ∧ x ≤ 1) := by
  simp only [encodeObservation, Option.map_eq_some'] at h
  obtain ⟨ws, hws, ho⟩ := h
  obtain ⟨sW, pr, histW, bW, hsW, hpr, hhW, hbW, hwseq⟩ := obsWrites_eq hws
  obtain ⟨hwf1, hwf2, -, -, -, -, -, -, hwfact, -⟩ := hwf
  have hpot : 0 ≤ pr.1 := foldlM_potStep_nonneg hwfact (by norm_num) hpr
  constructor
  · rw [← ho, length_applyWrites, List.length_replicate]
  · intro hd
    rw [← ho]
    have w01 : ∀ {x : ℚ}, 0 ≤ x ∧ x ≤ 1 → -1 ≤ x ∧ x ≤ 1 :=
      fun hx => ⟨by linarith [hx.1], hx.2⟩
    refine applyWrites_bounds (fun x hx => ?_) (fun p hp => ?_)
    · rw [List.eq_of_mem_replicate hx]; norm_num
    · rw [hwseq] at hp
      simp only [List.mem_append] at hp
      rcases hp with
        ((((((((((hp | hp) | hp) | hp) | hp) | hp) | hp) | hp) | hp) | hp) | hp)
      · exact w01 (timeWrites_val hwf1 p hp)
      · exact w01 (playerWrites_val hwf2 p hp)
      · rw [streetWrites_val p hp]; norm_num
      · rw [cardWrites_val p hp]; norm_num
      · rw [cardWrites_val p hp]; norm_num
      · rw [strengthWrites_eq hsW] at hp; simp at hp
      · exact w01 (potWrites_val hpot p hp)
      · exact w01 (buttonWrites_val p hp)
      · exact ⟨le_trans (by norm_num) (historyWrites_nonneg hwfact hhW p hp),
          (historyWrites_spec hhW p hp).2⟩
      · exact deltaWrites_val hd p hp
      · exact w01 (bountyWrites_val hbW p hp)

/-- Witness for C3: length and bounds at the flop message (delta absent, so
the bound hypothesis discharges trivially), and the unconditional length at
the `D800` message itself, whose delta exceeds the bound. -/
theorem c3_witness :
    ((encodeObservation (some msgFlop)).getD []).length = 250 ∧
    (∀ x ∈ (encodeObservation (some msgFlop)).getD [], -1 ≤ x ∧ x ≤ 1) ∧
    ((encodeObservation (some msgDelta800)).getD []).length = 250 := by
  refine ⟨?_, ?_, ?_⟩
  · cases hE : encodeObservation (some msgFlop) with
    | none =>
        exact absurd hE (by
          simp [encodeObservation, obsWrites, strengthWrites, potFold, potStep, historyWrites,
            historyWritesAux, bountyWrites, msgFlop])
    | some o =>
        simpa using (c3_bounded_observation msgFlop (by decide) o hE).1
  · cases hE : encodeObservation (some msgFlop) with
    | none =>
        exact absurd hE (by
          simp [encodeObservation, obsWrites, strengthWrites, potFold, potStep, historyWrites,
            historyWritesAux, bountyWrites, msgFlop])
    | some o =>
        simpa using (c3_bounded_observation msgFlop (by decide) o hE).2 (by simp [msgFlop])
  · cases hE : encodeObservation (some msgDelta800) with
    | none =>
        exact absurd hE (by
          simp [encodeObservation, obsWrites, strengthWrites, potFold, potStep, historyWrites,
            historyWritesAux, bountyWrites, msgDelta800])
    | some o =>
        simpa using (c3_bounded_observation msgDelta800 (by decide) o hE).1

/-- Counterexample for C5: on a board of length 1 (equally length 2) the
encoder sets NONE of the four street features — not exactly one as claimed. -/
theorem c5_counterexample :
    (encodeObservation (some msgOneBoard)).isSome = true ∧
    ((encodeObservation (some msgOneBoard)).getD []).getD 2 0 = 0 ∧
    ((encodeObservation (some msgOneBoard)).getD []).getD 3 0 = 0 ∧
    ((encodeObservation (some msgOneBoard)).getD []).getD 4 0 = 0 ∧
    ((encodeObservation (some msgOneBoard)).getD []).getD 5 0 = 0 := by
  refine ⟨?_, ?_, ?_, ?_, ?_⟩ <;>
    simp [encodeObservation, obsWrites, strengthWrites, potFold, potStep, historyWrites,
      historyWritesAux, bountyWrites, timeWrites, playerWrites, potWrites, buttonWrites,
      deltaWrites, streetWrites, cardWrites, cardToIndex, strIndex, ranks, suits,
      applyWrites_cons, applyWrites_nil, getD_set_ne, getD_set_self, msgOneBoard] <;>
    norm_num

/-- Claim C5 (amended): on every successful encode the street block is
derived solely from `board_cards` length — feature 2 is set exactly for
length 0, feature 3 for length 3, feature 4 for length 4, feature 5 for
length at least 5, and for lengths 1 and 2 none of the four is set. -/
theorem c5_street_indicator (m : StateMessage) (o : List ℚ)
    (h : encodeObservation (some m) = some o) :
    (o.getD 2 0 = if m.board_cards.length = 0 then (1 : ℚ) else 0) ∧
    (o.getD 3 0 = if m.board_cards.length = 3 then (1 : ℚ) else 0) ∧
    (o.getD 4 0 = if m.board_cards.length = 4 then (1 : ℚ) else 0) ∧
    (o.getD 5 0 = if 5 ≤ m.board_cards.length then (1 : ℚ) else 0) := by
  refine ⟨?_, ?_, ?_, ?_⟩ <;>
    rw [encode_getD_street h (by norm_num) (by norm_num),
      streetWrites_getD _ (by norm_num) (by norm_num)] <;>
    split_ifs <;> first | rfl | (exfalso; omega)

/-- Witness for C5 at the flop message. -/
theorem c5_witness :
    ((encodeObservation (some msgFlop)).getD []).getD 3 0 = 1 ∧
    ((encodeObservation (some msgFlop)).getD []).getD 2 0 = 0 := by
  cases hE : encodeObservation (some msgFlop) with
  | none =>
      exact absurd hE (by
        simp [encodeObservation, obsWrites, strengthWrites, potFold, potStep, historyWrites,
          historyWritesAux, bountyWrites, msgFlop])
  | some o =>
      have h5 := c5_street_indicator msgFlop o hE
      refine ⟨?_, ?_⟩ <;> simp only [Option.getD_some]
      · rw [h5.2.1]; simp [msgFlop]
      · rw [h5.1]; simp [msgFlop]

/-- Counterexample for C9: from a non-terminal state, a successful exchange
whose reply is the all-defaults message (no bankroll delta) does not return
the claimed reward 0.0 — `step` raises inside `_encode_observation`
(modelled as `none`) before any reward is computed. -/
theorem c9_counterexample :
    initState.game_over = false ∧ step initState 1 true (some defaultMessage) = none := by
  refine ⟨rfl, ?_⟩
  simp [step, initState, encodeObservation, obsWrites, strengthWrites, potFold, potStep,
    historyWrites, historyWritesAux, bountyWrites, defaultMessage]

/-- Claim C9 (amended): from a non-terminal state, a send failure or an
empty receive returns the fixed penalty reward -1.0 with `done = true` and
forces the terminal state; and whenever the reply message encodes without
raising, the returned reward is `bankroll_delta / 400` when the delta is
present and 0.0 otherwise. -/
theorem c9_step_reward (g : GameState) (hg : g.game_over = false) :
    (∀ (a : ℤ) (recv : Option StateMessage),
      step g a false recv =
        some ({ g with game_over := true }, (g.current_observation, -1, true))) ∧
    (∀ a : ℤ, step g a true none =
        some ({ g with game_over := true }, (g.current_observation, -1, true))) ∧
    (∀ (a : ℤ) (msg : StateMessage) (obs : List ℚ),
      encodeObservation (some msg) = some obs → msg.bankroll_delta = none →
      step g a true (some msg) =
        some ({ g with current_observation := some obs, game_over := msg.game_over },
          (some obs, 0, msg.game_over))) ∧
    (∀ (a : ℤ) (msg : StateMessage) (obs : List ℚ) (d : ℤ),
      encodeObservation (some msg) = some obs → msg.bankroll_delta = some d →
      step g a true (some msg) =
        some ({ g with current_observation := some obs, game_over := msg.game_over },
          (some obs, (d : ℚ) / 400, msg.game_over))) := by
  refine ⟨fun a recv => ?_, fun a => ?_, fun a msg obs hobs hdel => ?_,
    fun a msg obs d hobs hdel => ?_⟩
  · simp [step, hg]
  · simp [step, hg]
  · simp [step, hg, hobs, hdel]
  · simp [step, hg, hobs, hdel]

/-- Witness for C9: the penalty path at the initial state, and the reward
path on a terminal reply carrying `D40` (reward 40/400). -/
theorem c9_witness :
    step initState 5 false none =
      some ({ initState with game_over := true }, (initState.current_observation, -1, true)) ∧
    step initState 0 true (some msgReward) =
      some ({ initState with
                current_observation := some ((encodeObservation (some msgReward)).getD []),
                game_over := true },
        (some ((encodeObservation (some msgReward)).getD []), (40 : ℚ) / 400, true)) := by
  refine ⟨(c9_step_reward initState rfl).1 5 none, ?_⟩
  cases hE : encodeObservation (some msgReward) with
  | none =>
      exact absurd hE (by
        simp [encodeObservation, obsWrites, strengthWrites, potFold, potStep, historyWrites,
          historyWritesAux, bountyWrites, msgReward])
  | some o =>
      simp only [Option.getD_some]
      have h4 := (c9_step_reward initState rfl).2.2.2 0 msgReward o 40 hE rfl
      simpa [msgReward] using h4

theorem step_last_message {g g' : GameState} {a : ℤ} {ok : Bool} {recv : Option StateMessage}
    {out : Option (List ℚ) × ℚ × Bool} (h : step g a ok recv = some (g', out)) :
    g'.last_message = g.last_message := by
  by_cases h1 : g.game_over
  · have hstep : step g a ok recv = some (g, (g.current_observation, 0, true)) := by
      simp [step, h1]
    rw [hstep, Option.some.injEq] at h
    exact (congrArg (fun q => q.1.last_message) h).symm
  · by_cases h2 : ok
    · cases recv with
      | none =>
        have hstep : step g a true none =
            some ({ g with game_over := true }, (g.current_observation, -1, true)) := by
          simp [step, h1]
        rw [h2] at h
        rw [hstep, Option.some.injEq] at h
        exact (congrArg (fun q => q.1.last_message) h).symm
      | some msg =>
        cases hE : encodeObservation (some msg) with
        | none =>
          have hstep : step g a true (some msg) = none := by simp [step, h1, hE]
          rw [h2, hstep] at h
          simp at h
        | some obs =>
          have hstep : step g a true (some msg) =
              some ({ g with current_observation := some obs, game_over := msg.game_over },
                (some obs,
                  (match msg.bankroll_delta with
                   | some d => ((d : ℚ) / 400)
                   | none => 0),
                  msg.game_over)) := by
            simp [step, h1, hE]
          rw [h2, hstep, Option.some.injEq] at h
          exact (congrArg (fun q => q.1.last_message) h).symm
    · rw [Bool.not_eq_true] at h2
      have hstep : step g a false recv =
          some ({ g with game_over := true }, (g.current_observation, -1, true)) := by
        simp [step, h1]
      rw [h2, hstep, Option.some.injEq] at h
      exact (congrArg (fun q => q.1.last_message) h).symm

theorem reset_last_message {g g' : GameState} {ok : Bool} {msg : Option StateMessage}
    {obs : List ℚ} (h : resetGame g ok msg = some (g', obs)) :
    g'.last_message = g.last_message := by
  by_cases h1 : ok
  · cases hE : encodeObservation msg with
    | none =>
      have hreset : resetGame g true msg = none := by simp [resetGame, hE]
      rw [h1, hreset] at h
      simp at h
    | some o =>
      have hreset : resetGame g true msg =
          some ({ g with current_observation := some o, game_over := false,
                         last_reward := 0 }, o) := by
        simp [resetGame, hE]
      rw [h1, hreset, Option.some.injEq] at h
      exact (congrArg (fun q => q.1.last_message) h).symm
  · rw [Bool.not_eq_true] at h1
    have hreset : resetGame g false msg = none := by simp [resetGame]
    rw [h1, hreset] at h
    simp at h

/-- Claim C10: in every adapter state reachable through `__init__` and any
sequence of `step`/`reset` calls, the `last_message` attribute is never
assigned, so `legal_actions` always returns the complete index list
`[0, 103)` and its filtering branch is unreachable. -/
theorem c10_legal_actions_full (g : GameState) (h : Reachable g) :
    g.last_message = none ∧ legalActions g = List.range 103 := by
  have hlm : g.last_message = none := by
    induction h with
    | init => rfl
    | step hr hs ih => rw [step_last_message hs]; exact ih
    | reset hr hs ih => rw [reset_last_message hs]; exact ih
  exact ⟨hlm, by simp [legalActions, hlm]⟩

/-- Witness for C10 at the initial state. -/
theorem c10_witness :
    initState.last_message = none ∧ legalActions initState = List.range 103 :=
  c10_legal_actions_full initState Reachable.init
